import Mathlib

/-!
Verification of the hierarchy-grouper logic of `src/components/FileList.tsx`
(nihonbuzz/r2-pages). JavaScript strings are modelled as `List Char` (`JStr`);
the JS string primitives used by the component (`split` with the one-character
separator "/", `slice(n)`, `startsWith`, `Array.prototype.join("/")`) are given
faithful executable models, and the component's grouping loop, breadcrumb
derivation, size formatter and fetch handlers are transcribed over them.
-/

/-- A JavaScript string, modelled as its list of characters. -/
abbrev JStr := List Char

/-- Model of JavaScript `s.split(sep)` for a one-character separator `sep`:
splits `s` at every occurrence of `sep`; the result is never empty
(`"".split("/") = [""]`, `"a/".split("/") = ["a",""]`). -/
def jsSplit (sep : Char) : JStr → List JStr
  | [] => [[]]
  | c :: rest =>
    if c = sep then [] :: jsSplit sep rest
    else
      match jsSplit sep rest with
      | [] => [[c]]
      | seg :: segs => (c :: seg) :: segs

/-- Model of JavaScript `arr.join(sep)` for a one-character separator. -/
def jsJoin (sep : Char) : List JStr → JStr
  | [] => []
  | [s] => s
  | s :: rest => s ++ sep :: jsJoin sep rest

/-- The record shape returned by the API, `FileItem` in `FileList.tsx`
(line 3): `{ Key: string; Size: number; LastModified: string }`.
Sizes in the claims are non-negative integers, so `Size` is a `Nat`. -/
structure FileItem where
  Key : JStr
  Size : Nat
  LastModified : JStr
deriving DecidableEq

/-- `"folder"` / `"file"` discriminator of a display item (line 59). -/
inductive EntryType where
  | folder
  | file
deriving DecidableEq

/-- One element of `displayItems` (lines 58-63):
`{ type, name, fullPath, item? }`. -/
structure DisplayEntry where
  type : EntryType
  name : JStr
  fullPath : JStr
  item : Option FileItem
deriving DecidableEq

/-- The first path segment a record contributes under `currentPath`:
`file.Key.slice(currentPath.length).split("/")[0]` (lines 68-69). -/
def childSeg (currentPath : JStr) (f : FileItem) : JStr :=
  (jsSplit '/' (f.Key.drop currentPath.length)).headD []

/-- The display entry built from one record in the loop body (lines 73-86):
a folder entry when the split left a non-empty remainder, a file entry
otherwise. -/
def entryOf (currentPath : JStr) (f : FileItem) : DisplayEntry :=
  if (jsSplit '/' (f.Key.drop currentPath.length)).tail.length > 0 then
    ⟨EntryType.folder, childSeg currentPath f,
      currentPath ++ childSeg currentPath f ++ ['/'], none⟩
  else
    ⟨EntryType.file, childSeg currentPath f, f.Key, some f⟩

/-- The grouping loop of lines 65-87: walks the filtered records carrying the
`seen` set of names already emitted; a record whose first segment is empty or
already seen is skipped (`continue`), otherwise it emits a folder or file
entry and marks the name as seen. -/
def groupLoop (currentPath : JStr) : List FileItem → List JStr → List DisplayEntry
  | [], _ => []
  | f :: files, seen =>
    if childSeg currentPath f = [] ∨ childSeg currentPath f ∈ seen then
      groupLoop currentPath files seen
    else
      entryOf currentPath f :: groupLoop currentPath files (childSeg currentPath f :: seen)

/-- The full grouper: the prefix filter of line 57
(`files.filter((file) => file.Key.startsWith(currentPath))`) followed by the
loop of lines 65-87 started with an empty `seen` set. -/
def displayItems (files : List FileItem) (currentPath : JStr) : List DisplayEntry :=
  groupLoop currentPath (files.filter (fun f => currentPath.isPrefixOf f.Key)) []

/-- Line 56: `currentPath ? currentPath.split("/").filter(Boolean) : []`. -/
def pathSegments (currentPath : JStr) : List JStr :=
  if currentPath ≠ [] then (jsSplit '/' currentPath).filter (fun s => s ≠ []) else []

/-- The breadcrumb rendering of lines 115-128: each segment is paired with
`pathSegments.slice(0, idx + 1).join("/") + "/"`. -/
def breadcrumb (currentPath : JStr) : List (JStr × JStr) :=
  (pathSegments currentPath).enum.map
    (fun p => (p.2, jsJoin '/' ((pathSegments currentPath).take (p.1 + 1)) ++ ['/']))

/-- The spec's description of `breadcrumbSegments()` (section 4.2), stated as
its own definition for comparison with the code: split CurrentPath on `/`,
discard empty segments, and attach to the segment at index `i` the running
prefix formed by the first `i + 1` segments joined with `/` plus a trailing
`/`. -/
def breadcrumbSpec (currentPath : JStr) : List (JStr × JStr) :=
  let segs := (jsSplit '/' currentPath).filter (fun s => s ≠ [])
  segs.enum.map (fun p => (p.2, jsJoin '/' (segs.take (p.1 + 1)) ++ ['/']))

/-- Round `num / den` (a non-negative rational, `den ≠ 0`) to one decimal
digit, ties away from zero, and print it with one digit after the point:
the value of JavaScript `(num / den).toFixed(1)` whenever `num / den` is
exactly representable as a double (true at every input the claims use). -/
def toFixed1 (num den : Nat) : String :=
  let n := (20 * num + den) / (2 * den)
  toString (n / 10) ++ "." ++ toString (n % 10)

/-- `formatSize` (lines 9-13): bytes below 1024 verbatim with `" B"`, below
1024² as KB with one decimal, otherwise as MB with one decimal. -/
def formatSize (bytes : Nat) : String :=
  if bytes < 1024 then toString bytes ++ " B"
  else if bytes < 1024 * 1024 then toFixed1 bytes 1024 ++ " KB"
  else toFixed1 bytes (1024 * 1024) ++ " MB"

/-- The component state held by the three `useState` hooks (lines 37-39). -/
structure ComponentState where
  files : List FileItem
  loading : Bool
  currentPath : JStr
deriving DecidableEq

/-- Initial state: `files = []`, `loading = true`, `currentPath = ""`. -/
def initialState : ComponentState := ⟨[], true, []⟩

/-- Observable side effects of the fetch handlers: a `console.error` log or
the issuing of a further network request. -/
inductive Effect where
  | consoleError (msg : String)
  | fetchRequest
deriving DecidableEq

/-- The `.catch` handler of lines 50-53: logs
`"Failed to fetch files:"` with the error and clears the loading flag;
`files` is not touched and no new request is issued. -/
def onFetchFailure (s : ComponentState) : ComponentState × List Effect :=
  (⟨s.files, false, s.currentPath⟩, [Effect.consoleError "Failed to fetch files:"])

/-- The success path of lines 46-49: stores the data and clears loading. -/
def onFetchSuccess (data : List FileItem) (s : ComponentState) : ComponentState :=
  ⟨data, false, s.currentPath⟩

/-! ### Properties of the string-primitive models -/

theorem jsSplit_ne_nil (sep : Char) (s : JStr) : jsSplit sep s ≠ [] := by
  induction s with
  | nil => simp [jsSplit]
  | cons c rest ih =>
    simp only [jsSplit]
    split
    · simp
    · cases h : jsSplit sep rest with
      | nil => simp
      | cons seg segs => simp

theorem jsJoin_cons (sep : Char) (s : JStr) (l : List JStr) (h : l ≠ []) :
    jsJoin sep (s :: l) = s ++ sep :: jsJoin sep l := by
  cases l with
  | nil => exact absurd rfl h
  | cons t ts => rfl

theorem jsJoin_jsSplit (sep : Char) (s : JStr) : jsJoin sep (jsSplit sep s) = s := by
  induction s with
  | nil => rfl
  | cons c rest ih =>
    simp only [jsSplit]
    by_cases hc : c = sep
    · rw [if_pos hc, jsJoin_cons sep [] _ (jsSplit_ne_nil sep rest), ih, hc]
      rfl
    · rw [if_neg hc]
      cases h : jsSplit sep rest with
      | nil => exact absurd h (jsSplit_ne_nil sep rest)
      | cons seg segs =>
        rw [h] at ih
        cases segs with
        | nil => simpa [jsJoin] using ih
        | cons t ts =>
          rw [jsJoin_cons sep (c :: seg) _ (by simp),
            List.cons_append, ← jsJoin_cons sep seg _ (by simp), ih]

theorem not_mem_of_mem_jsSplit (sep : Char) (s : JStr) (t : JStr)
    (ht : t ∈ jsSplit sep s) : sep ∉ t := by
  induction s generalizing t with
  | nil =>
    simp only [jsSplit, List.mem_singleton] at ht
    subst ht; simp
  | cons c rest ih =>
    simp only [jsSplit] at ht
    by_cases hc : c = sep
    · rw [if_pos hc] at ht
      rcases List.mem_cons.mp ht with h | h
      · subst h; simp
      · exact ih t h
    · rw [if_neg hc] at ht
      cases h : jsSplit sep rest with
      | nil => exact absurd h (jsSplit_ne_nil sep rest)
      | cons seg segs =>
        rw [h] at ht
        rcases List.mem_cons.mp ht with h1 | h1
        · subst h1
          intro hmem
          rcases List.mem_cons.mp hmem with h2 | h2
          · exact hc h2.symm
          · exact ih seg (by rw [h]; exact List.mem_cons_self _ _) h2
        · exact ih t (by rw [h]; exact List.mem_cons_of_mem _ h1)

theorem jsSplit_eq_single (sep : Char) (s : JStr) (h : sep ∉ s) : jsSplit sep s = [s] := by
  induction s with
  | nil => rfl
  | cons c rest ih =>
    simp only [jsSplit]
    rw [if_neg (fun hc : c = sep => h (hc ▸ List.mem_cons_self c rest)),
      ih (fun hm => h (List.mem_cons_of_mem c hm))]

theorem jsSplit_append (sep : Char) (s w : JStr) (h : sep ∉ s) :
    jsSplit sep (s ++ sep :: w) = s :: jsSplit sep w := by
  induction s with
  | nil => simp [jsSplit]
  | cons c rest ih =>
    have hc : c ≠ sep := fun hc => h (hc ▸ List.mem_cons_self c rest)
    rw [List.cons_append]
    simp only [jsSplit]
    rw [if_neg hc, ih (fun hm => h (List.mem_cons_of_mem c hm))]

/-! ### Properties of the grouping loop -/

theorem entryOf_name (cp : JStr) (f : FileItem) : (entryOf cp f).name = childSeg cp f := by
  unfold entryOf
  split <;> rfl

theorem entryOf_cases (cp : JStr) (f : FileItem) :
    ((jsSplit '/' (f.Key.drop cp.length)).tail ≠ [] ∧
      entryOf cp f =
        ⟨EntryType.folder, childSeg cp f, cp ++ childSeg cp f ++ ['/'], none⟩) ∨
    ((jsSplit '/' (f.Key.drop cp.length)).tail = [] ∧
      entryOf cp f = ⟨EntryType.file, childSeg cp f, f.Key, some f⟩) := by
  unfold entryOf
  by_cases h : (jsSplit '/' (f.Key.drop cp.length)).tail.length > 0
  · rw [if_pos h]
    exact Or.inl ⟨List.ne_nil_of_length_pos h, rfl⟩
  · rw [if_neg h]
    exact Or.inr ⟨List.length_eq_zero.mp (Nat.eq_zero_of_not_pos h), rfl⟩

theorem groupLoop_cons (cp : JStr) (f : FileItem) (L : List FileItem) (seen : List JStr) :
    groupLoop cp (f :: L) seen =
      if childSeg cp f = [] ∨ childSeg cp f ∈ seen then groupLoop cp L seen
      else entryOf cp f :: groupLoop cp L (childSeg cp f :: seen) := rfl

theorem mem_groupLoop (cp : JStr) (L : List FileItem) (seen : List JStr) (e : DisplayEntry)
    (he : e ∈ groupLoop cp L seen) :
    ∃ f ∈ L, e = entryOf cp f ∧ childSeg cp f ≠ [] ∧ childSeg cp f ∉ seen := by
  induction L generalizing seen with
  | nil => simp [groupLoop] at he
  | cons f L ih =>
    rw [groupLoop_cons] at he
    by_cases hcond : childSeg cp f = [] ∨ childSeg cp f ∈ seen
    · rw [if_pos hcond] at he
      obtain ⟨g, hg, rest⟩ := ih seen he
      exact ⟨g, List.mem_cons_of_mem _ hg, rest⟩
    · rw [if_neg hcond] at he
      push_neg at hcond
      rcases List.mem_cons.mp he with h | h
      · exact ⟨f, List.mem_cons_self _ _, h, hcond.1, hcond.2⟩
      · obtain ⟨g, hg, h1, h2, h3⟩ := ih _ h
        exact ⟨g, List.mem_cons_of_mem _ hg, h1, h2,
          fun hm => h3 (List.mem_cons_of_mem _ hm)⟩

theorem groupLoop_length (cp : JStr) (L : List FileItem) (seen : List JStr) :
    (groupLoop cp L seen).length ≤ L.length := by
  induction L generalizing seen with
  | nil => simp [groupLoop]
  | cons f L ih =>
    rw [groupLoop_cons]
    split
    · exact Nat.le_succ_of_le (ih seen)
    · simpa using Nat.succ_le_succ (ih _)

theorem groupLoop_names (cp : JStr) (L : List FileItem) (seen : List JStr) (e : DisplayEntry)
    (he : e ∈ groupLoop cp L seen) : e.name ∉ seen ∧ e.name ≠ [] := by
  induction L generalizing seen with
  | nil => simp [groupLoop] at he
  | cons f L ih =>
    rw [groupLoop_cons] at he
    by_cases hcond : childSeg cp f = [] ∨ childSeg cp f ∈ seen
    · rw [if_pos hcond] at he
      exact ih seen he
    · rw [if_neg hcond] at he
      push_neg at hcond
      rcases List.mem_cons.mp he with h | h
      · rw [h, entryOf_name]
        exact ⟨hcond.2, hcond.1⟩
      · obtain ⟨h1, h2⟩ := ih _ h
        exact ⟨fun hm => h1 (List.mem_cons_of_mem _ hm), h2⟩

theorem groupLoop_names_nodup (cp : JStr) (L : List FileItem) (seen : List JStr) :
    ((groupLoop cp L seen).map DisplayEntry.name).Nodup := by
  induction L generalizing seen with
  | nil => simp [groupLoop]
  | cons f L ih =>
    rw [groupLoop_cons]
    split
    · exact ih seen
    · simp only [List.map_cons, List.nodup_cons]
      refine ⟨fun hmem => ?_, ih _⟩
      obtain ⟨e, he, hname⟩ := List.mem_map.mp hmem
      have h := (groupLoop_names cp L _ e he).1
      rw [entryOf_name] at hname
      exact h (hname ▸ List.mem_cons_self _ _)

theorem groupLoop_find (cp : JStr) (L : List FileItem) (seen : List JStr) (e : DisplayEntry)
    (he : e ∈ groupLoop cp L seen) :
    ∃ f, L.find? (fun g => childSeg cp g == e.name) = some f ∧ e = entryOf cp f := by
  induction L generalizing seen with
  | nil => simp [groupLoop] at he
  | cons f L ih =>
    rw [groupLoop_cons] at he
    by_cases hcond : childSeg cp f = [] ∨ childSeg cp f ∈ seen
    · rw [if_pos hcond] at he
      obtain ⟨hseen, hne⟩ := groupLoop_names cp L seen e he
      have hnotf : ¬(childSeg cp f == e.name) = true := by
        simp only [beq_iff_eq]
        rcases hcond with h | h
        · exact fun hh => hne (hh ▸ h)
        · exact fun hh => hseen (hh ▸ h)
      rw [@List.find?_cons_of_neg _ (fun g => childSeg cp g == e.name) f L hnotf]
      exact ih seen he
    · rw [if_neg hcond] at he
      rcases List.mem_cons.mp he with h | h
      · refine ⟨f, ?_, h⟩
        rw [@List.find?_cons_of_pos _ (fun g => childSeg cp g == e.name) f L
          (by simp [h, entryOf_name])]
      · have hne : e.name ≠ childSeg cp f := by
          have := (groupLoop_names cp L _ e h).1
          exact fun hh => this (hh ▸ List.mem_cons_self _ _)
        rw [@List.find?_cons_of_neg _ (fun g => childSeg cp g == e.name) f L
          (by simpa using fun hh => hne hh.symm)]
        exact ih _ h

theorem groupLoop_ne_nil (cp : JStr) (f : FileItem) (L : List FileItem)
    (hne : childSeg cp f ≠ []) :
    ∀ seen : List JStr, f ∈ L → childSeg cp f ∉ seen → groupLoop cp L seen ≠ [] := by
  induction L with
  | nil => intro seen hf _; simp at hf
  | cons g L ih =>
    intro seen hf hseen
    rw [groupLoop_cons]
    by_cases hcond : childSeg cp g = [] ∨ childSeg cp g ∈ seen
    · rw [if_pos hcond]
      rcases List.mem_cons.mp hf with h | h
      · subst h
        rcases hcond with h1 | h1
        · exact absurd h1 hne
        · exact absurd h1 hseen
      · exact ih seen h hseen
    · rw [if_neg hcond]
      simp

theorem key_drop_of_prefix (cp k : JStr) (h : cp <+: k) : k = cp ++ k.drop cp.length := by
  obtain ⟨t, ht⟩ := h
  rw [← ht, List.drop_left]

/-! ### Concrete inputs used by the witnesses -/

/-- A single record with key `"a/b"`. -/
def demoFiles : List FileItem := [⟨['a', '/', 'b'], 0, []⟩]

/-- Two records sharing the folder prefix `"a/"`: keys `"a/b"`, `"a/c"`. -/
def demoDupFiles : List FileItem := [⟨['a', '/', 'b'], 0, []⟩, ⟨['a', '/', 'c'], 0, []⟩]

/-- Records `"a/b"` and `"c"`, with pairwise-distinct keys. -/
def demoMixedFiles : List FileItem := [⟨['a', '/', 'b'], 0, []⟩, ⟨['c'], 1, []⟩]

/-- The folder entry the grouper produces for key `"a/b"` at the root. -/
def demoFolderEntry : DisplayEntry := ⟨EntryType.folder, ['a'], ['a', '/'], none⟩

/-- The file entry the grouper produces for key `"c"` at the root. -/
def demoFileEntry : DisplayEntry := ⟨EntryType.file, ['c'], ['c'], some ⟨['c'], 1, []⟩⟩

/-! ### The claims -/

/-- C1: for every record list and current path, every display entry produced
by the grouper (the prefix filter of line 57 plus the loop of lines 67-87)
has a `fullPath` that starts with the current path, for folder and file
entries alike. -/
theorem c1_fullPath_starts_with_current_path (files : List FileItem) (cp : JStr)
    (e : DisplayEntry) (he : e ∈ displayItems files cp) : cp <+: e.fullPath := by
  obtain ⟨f, hf, hef, _, _⟩ := mem_groupLoop cp _ [] e he
  have hpre : cp <+: f.Key := by
    have h2 := (List.mem_filter.mp hf).2
    simpa using h2
  rcases entryOf_cases cp f with ⟨_, hfold⟩ | ⟨_, hfile⟩
  · rw [hef, hfold]
    show cp <+: cp ++ childSeg cp f ++ ['/']
    rw [List.append_assoc]
    exact List.prefix_append _ _
  · rw [hef, hfile]
    exact hpre

/-- Witness for C1: the folder entry `{folder, "a", "a/"}` produced for the
record `"a/b"` at the root has the root as a prefix of its `fullPath`. -/
theorem c1_fullPath_starts_with_current_path_witness :
    demoFolderEntry ∈ displayItems demoFiles [] ∧
      ([] : JStr) <+: demoFolderEntry.fullPath :=
  ⟨by decide,
    c1_fullPath_starts_with_current_path demoFiles [] demoFolderEntry (by decide)⟩

/-- C2: with pairwise-distinct keys, every folder entry's `fullPath` ends in
`"/"` (line 77), and every file entry's `fullPath` equals the key of exactly
one input record, namely the record stored as its backing `item`
(lines 80-85). -/
theorem c2_folder_slash_file_unique_key (files : List FileItem) (cp : JStr)
    (hnd : (files.map FileItem.Key).Nodup)
    (e : DisplayEntry) (he : e ∈ displayItems files cp) :
    (e.type = EntryType.folder → ['/'] <:+ e.fullPath) ∧
    (e.type = EntryType.file → ∃ r, r ∈ files ∧ e.item = some r ∧ e.fullPath = r.Key ∧
      ∀ r' ∈ files, r'.Key = e.fullPath → r' = r) := by
  obtain ⟨f, hf, hef, _, _⟩ := mem_groupLoop cp _ [] e he
  have hfin : f ∈ files := (List.mem_filter.mp hf).1
  rcases entryOf_cases cp f with ⟨_, hfold⟩ | ⟨_, hfile⟩
  · rw [hef, hfold]
    constructor
    · intro _
      show ['/'] <:+ cp ++ childSeg cp f ++ ['/']
      exact List.suffix_append _ _
    · intro h
      simp at h
  · rw [hef, hfile]
    constructor
    · intro h
      simp at h
    · intro _
      refine ⟨f, hfin, rfl, rfl, ?_⟩
      intro r' hr' hkey
      exact List.inj_on_of_nodup_map hnd hr' hfin hkey

/-- Witness for C2: for records `"a/b"`, `"c"` the file entry for `"c"` is
backed by exactly one record whose key equals its `fullPath`. -/
theorem c2_folder_slash_file_unique_key_witness :
    ∃ r, r ∈ demoMixedFiles ∧ demoFileEntry.item = some r ∧
      demoFileEntry.fullPath = r.Key ∧
      ∀ r' ∈ demoMixedFiles, r'.Key = demoFileEntry.fullPath → r' = r :=
  (c2_folder_slash_file_unique_key demoMixedFiles [] (by decide)
    demoFileEntry (by decide)).2 rfl

/-- C3: in one grouper invocation the entry names are pairwise distinct, and
the entry carrying a given name is the one built from the first record (in
input order) of the filtered list whose child segment is that name —
first-occurrence-wins via the `seen` set (lines 65-71). -/
theorem c3_names_distinct_first_occurrence_wins (files : List FileItem) (cp : JStr) :
    ((displayItems files cp).map DisplayEntry.name).Nodup ∧
    ∀ e ∈ displayItems files cp,
      ∃ f, (files.filter (fun g => cp.isPrefixOf g.Key)).find?
          (fun g => childSeg cp g == e.name) = some f ∧ e = entryOf cp f :=
  ⟨groupLoop_names_nodup cp _ [], fun e he => groupLoop_find cp _ [] e he⟩

/-- Witness for C3: with records `"a/b"`, `"a/c"` the single folder entry
`"a"` is built from the first of the two records. -/
theorem c3_names_distinct_first_occurrence_wins_witness :
    ∃ f, (demoDupFiles.filter (fun g => ([] : JStr).isPrefixOf g.Key)).find?
        (fun g => childSeg [] g == demoFolderEntry.name) = some f ∧
      demoFolderEntry = entryOf [] f :=
  (c3_names_distinct_first_occurrence_wins demoDupFiles []).2 demoFolderEntry (by decide)

/-- Record with key `"a/b.txt"` from Scenario A of the spec. -/
def recAB : FileItem := ⟨['a', '/', 'b', '.', 't', 'x', 't'], 0, []⟩

/-- Record with key `"a/c.txt"` from Scenario A of the spec. -/
def recAC : FileItem := ⟨['a', '/', 'c', '.', 't', 'x', 't'], 0, []⟩

/-- Record with key `"d.txt"` from Scenario A of the spec. -/
def recD : FileItem := ⟨['d', '.', 't', 'x', 't'], 0, []⟩

/-- C4: Scenario A — records `"a/b.txt"`, `"a/c.txt"`, `"d.txt"` at the root
produce exactly `[{folder, "a", "a/"}, {file, "d.txt", "d.txt"}]`, in input
(first-occurrence) order, not alphabetical order. -/
theorem c4_scenario_a :
    displayItems [recAB, recAC, recD] [] =
      [⟨EntryType.folder, ['a'], ['a', '/'], none⟩,
       ⟨EntryType.file, ['d', '.', 't', 'x', 't'], ['d', '.', 't', 'x', 't'], some recD⟩] := by
  decide

/-- C5: the breadcrumb rendering (line 56 and lines 115-128) computes, for
every current path, exactly the spec's `breadcrumbSegments()`: the non-empty
segments of the path split on `/`, each paired with the running prefix of
the first `i + 1` segments joined with `/` plus a trailing `/`. -/
theorem c5_breadcrumb_matches_spec (cp : JStr) : breadcrumb cp = breadcrumbSpec cp := by
  cases cp with
  | nil => rfl
  | cons c rest => simp [breadcrumb, breadcrumbSpec, pathSegments]

/-- C6: the byte-size formatter (lines 9-13) returns `"512 B"` for 512,
`"2.0 KB"` for 2048 and `"5.0 MB"` for 5242880. -/
theorem c6_format_size_examples :
    formatSize 512 = "512 B" ∧ formatSize 2048 = "2.0 KB" ∧
      formatSize 5242880 = "5.0 MB" :=
  ⟨by decide, by decide, by decide⟩

/-- C7: when the initial fetch fails (lines 50-53), the handler logs the
failure, clears the loading flag, leaves the record set as the empty list —
so the grouper shows zero entries at every path in a non-loading state —
and issues no retry request. -/
theorem c7_fetch_failure_empty_non_loading (cp : JStr) :
    (onFetchFailure initialState).1 = ⟨[], false, []⟩ ∧
    displayItems (onFetchFailure initialState).1.files cp = [] ∧
    (∃ m, Effect.consoleError m ∈ (onFetchFailure initialState).2) ∧
    Effect.fetchRequest ∉ (onFetchFailure initialState).2 :=
  ⟨rfl, rfl, ⟨"Failed to fetch files:", by simp [onFetchFailure]⟩,
    by simp [onFetchFailure]⟩

/-- C8: the grouper is a deterministic function of its two inputs — two
invocations on equal record lists and equal current paths yield equal
ordered outputs (lines 56-87; the loop reads nothing but its inputs). -/
theorem c8_grouper_deterministic (files₁ files₂ : List FileItem) (cp₁ cp₂ : JStr)
    (hf : files₁ = files₂) (hc : cp₁ = cp₂) :
    displayItems files₁ cp₁ = displayItems files₂ cp₂ := by
  rw [hf, hc]

/-- Witness for C8 at a concrete input. -/
theorem c8_grouper_deterministic_witness :
    displayItems demoFiles [] = displayItems demoFiles [] :=
  c8_grouper_deterministic demoFiles demoFiles [] [] rfl rfl

/-- C9: the grouper is total and emits at most one entry per input record
(each loop iteration pushes at most one item, lines 67-87), so the output
is never longer than the input list. -/
theorem c9_at_most_one_entry_per_record (files : List FileItem) (cp : JStr) :
    (displayItems files cp).length ≤ files.length :=
  Nat.le_trans (groupLoop_length cp _ []) (List.length_filter_le _ files)

/-- C10: if no key contains an empty segment (no `"//"` infix and no
trailing `"/"`), then navigating into any folder entry the grouper produced
yields a non-empty listing: the record that generated the folder entry still
matches the extended path and its next segment is non-empty, so the loop
emits at least one entry. -/
theorem c10_folder_navigation_non_empty (files : List FileItem) (cp : JStr)
    (hkeys : ∀ f ∈ files, ¬ ['/', '/'] <:+: f.Key ∧ ¬ ['/'] <:+ f.Key)
    (e : DisplayEntry) (he : e ∈ displayItems files cp)
    (hty : e.type = EntryType.folder) :
    displayItems files e.fullPath ≠ [] := by
  obtain ⟨f, hf, hef, _, _⟩ := mem_groupLoop cp _ [] e he
  have hfin : f ∈ files := (List.mem_filter.mp hf).1
  have hpre : cp <+: f.Key := by
    have h2 := (List.mem_filter.mp hf).2
    simpa using h2
  rcases entryOf_cases cp f with ⟨htail, hfold⟩ | ⟨_, hfile⟩
  on_goal 2 =>
    rw [hef, hfile] at hty
    simp at hty
  cases hsp : jsSplit '/' (f.Key.drop cp.length) with
  | nil => exact absurd hsp (jsSplit_ne_nil _ _)
  | cons s0 t0 =>
  have hs0 : childSeg cp f = s0 := by rw [childSeg, hsp]; rfl
  rw [hsp] at htail
  cases t0 with
  | nil => exact absurd rfl htail
  | cons s1 t1 =>
  have hkey : f.Key = cp ++ f.Key.drop cp.length := key_drop_of_prefix cp f.Key hpre
  have hjoin : f.Key.drop cp.length = s0 ++ '/' :: jsJoin '/' (s1 :: t1) := by
    conv_lhs => rw [← jsJoin_jsSplit '/' (f.Key.drop cp.length)]
    rw [hsp, jsJoin_cons '/' s0 _ (by simp)]
  have hkey2 : f.Key = (cp ++ s0 ++ ['/']) ++ jsJoin '/' (s1 :: t1) := by
    rw [hkey, hjoin]
    simp
  obtain ⟨hninf, hntr⟩ := hkeys f hfin
  have hsuf : f.Key.drop cp.length <:+ f.Key := List.drop_suffix _ _
  have hninf2 : ¬ ['/', '/'] <:+: f.Key.drop cp.length :=
    fun h => hninf (h.trans hsuf.isInfix)
  have hntr2 : ¬ ['/'] <:+ f.Key.drop cp.length :=
    fun h => hntr (h.trans hsuf)
  have hmem : '/' ∉ s1 :=
    not_mem_of_mem_jsSplit '/' (f.Key.drop cp.length) s1
      (by rw [hsp]; exact List.mem_cons_of_mem _ (List.mem_cons_self _ _))
  have hs1 : s1 ≠ [] := by
    intro h0
    subst h0
    cases t1 with
    | nil =>
      apply hntr2
      rw [hjoin]
      exact ⟨s0, rfl⟩
    | cons s2 t2 =>
      apply hninf2
      rw [hjoin, jsJoin_cons '/' [] _ (by simp)]
      exact ⟨s0, jsJoin '/' (s2 :: t2), by simp⟩
  have hdrop2 : f.Key.drop (cp ++ s0 ++ ['/']).length = jsJoin '/' (s1 :: t1) := by
    conv_lhs => rw [hkey2]
    exact List.drop_left _ _
  have hcs2 : childSeg (cp ++ s0 ++ ['/']) f = s1 := by
    rw [childSeg, hdrop2]
    cases t1 with
    | nil =>
      show (jsSplit '/' s1).headD [] = s1
      rw [jsSplit_eq_single '/' s1 hmem]
      rfl
    | cons s2 t2 =>
      rw [jsJoin_cons '/' s1 _ (by simp), jsSplit_append '/' s1 _ hmem]
      rfl
  have hf2 : f ∈ files.filter (fun g => (cp ++ s0 ++ ['/']).isPrefixOf g.Key) := by
    rw [List.mem_filter]
    refine ⟨hfin, ?_⟩
    simp only [ List.isPrefixOf_iff_prefix]
    exact ⟨jsJoin '/' (s1 :: t1), hkey2.symm⟩
  rw [hef, hfold]
  show displayItems files (cp ++ childSeg cp f ++ ['/']) ≠ []
  rw [hs0]
  unfold displayItems
  exact groupLoop_ne_nil (cp ++ s0 ++ ['/']) f _
    (by rw [hcs2]; exact hs1) [] hf2 (by simp)

/-- Witness for C10: for the single record `"a/b"` (clean key) the folder
entry `{folder, "a", "a/"}` at the root leads to a non-empty listing at
path `"a/"`. -/
theorem c10_folder_navigation_non_empty_witness :
    displayItems demoFiles demoFolderEntry.fullPath ≠ [] :=
  c10_folder_navigation_non_empty demoFiles [] (by decide)
    demoFolderEntry (by decide) (by decide)
